import Mathlib

/-!
Verification of the betterbilling invoice renderer (`invoice_create.py`,
`settings.py`) against its natural-language specification.

Modelling conventions (shallow embedding):
* Python strings are `List Char`; Python floats are `ℚ` (the algorithms use
  only +, -, *, /, comparisons and `floor`, all exact here).
* `fpdf`'s `get_string_width` is additive over characters (a sum of per-glyph
  widths), so it is modelled by an arbitrary per-character width function
  `cw : Char → ℚ` and `strWidth cw s = (s.map cw).sum`.
* Stateful drawing code is embedded as explicit state passing; only the
  quantities that feed back into the text/layout computations (page number,
  vertical cursor) are tracked — actual ink on the page does not influence
  any later computation in the source.
-/

/-! ### Character classes and basic string helpers -/

/-- Python `\s` / `str.strip` whitespace, restricted to the ASCII range
(the repository only ever feeds ASCII form input to these helpers). -/
def pyIsSpace (c : Char) : Bool :=
  c = ' ' || c = '\t' || c = '\n' || c = '\r' || c = '\x0b' || c = '\x0c'

/-- The breakable punctuation class `[-,/;:]` of `wrap_text_lines`. -/
def isBreakPunct (c : Char) : Bool :=
  c = '-' || c = ',' || c = '/' || c = ';' || c = ':'

/-- A character that is part of an ordinary word token (neither whitespace
nor breakable punctuation). -/
def wordChar (c : Char) : Bool :=
  !pyIsSpace c && !isBreakPunct c

/-- Python `str.rstrip()`. -/
def rstripCh (s : List Char) : List Char :=
  ((s.reverse).dropWhile pyIsSpace).reverse

/-- Python `str.lstrip()`. -/
def lstripCh (s : List Char) : List Char :=
  s.dropWhile pyIsSpace

/-- Python `str.strip()`. -/
def pyStrip (s : List Char) : List Char :=
  rstripCh (lstripCh s)

/-- Model of `pdf.get_string_width`: total advance width of a string for the
per-character width function `cw` (fpdf computes exactly such a sum). -/
def strWidth (cw : Char → ℚ) (s : List Char) : ℚ :=
  (s.map cw).sum

/-- The `too_wide` test of `wrap_text_lines`:
`pdf.get_string_width(s) > max_w_mm - 0.5`. -/
def tooWide (cw : Char → ℚ) (maxW : ℚ) (s : List Char) : Bool :=
  decide (maxW - 1/2 < strWidth cw s)

/-! ### Tokenizer

`re.split(r'(\s+|[-,/;:])', text)` cuts `text` into maximal whitespace runs,
single breakable-punctuation characters and maximal ordinary-word runs, with
delimiters kept.  `re.split` also yields empty segments between two adjacent
delimiters; the wrapping loop skips those (`if tok == ""`), so the tokenizer
below simply omits them. -/

def tokenizeGo : List Char → List (List Char)
  | [] => []
  | c :: rest =>
    if pyIsSpace c then
      (c :: rest.takeWhile pyIsSpace) :: tokenizeGo (rest.dropWhile pyIsSpace)
    else if isBreakPunct c then
      [c] :: tokenizeGo rest
    else
      (c :: rest.takeWhile wordChar) :: tokenizeGo (rest.dropWhile wordChar)
termination_by l => l.length
decreasing_by
  · simpa using Nat.lt_succ_of_le (List.Sublist.length_le (List.dropWhile_sublist _))
  · simp
  · simpa using Nat.lt_succ_of_le (List.Sublist.length_le (List.dropWhile_sublist _))

/-- Token stream of `wrap_text_lines` for the input `text`. -/
def tokenize (text : List Char) : List (List Char) :=
  tokenizeGo text

/-! ### `wrap_text_lines` (invoice_create.py, lines 68–121) -/

/-- The emergency character-level splitting loop of `wrap_text_lines`
(`for ch in tok: ...`): it returns the lines it appends and the final `buf`,
starting from a given `buf`.  (The Python code also computes an unused bound
`cap` from `_avg_char_mm`; being dead code, it is not modelled.) -/
def emergLoop (cw : Char → ℚ) (maxW : ℚ) (buf : List Char) :
    List Char → List (List Char) × List Char
  | [] => ([], buf)
  | ch :: rest =>
    if tooWide cw maxW (buf ++ [ch]) then
      -- last = buf.pop(); if buf: lines.append(buf); buf = [last]
      let r := emergLoop cw maxW [ch] rest
      if buf = [] then r else (buf :: r.1, r.2)
    else
      emergLoop cw maxW (buf ++ [ch]) rest

/-- Wrapping state: the `lines` accumulated so far and the current line `cur`. -/
structure WrapSt where
  lines : List (List Char)
  cur : List Char
deriving Repr, DecidableEq

/-- `if cur: lines.append(cur.rstrip())` — the lines after closing `cur`. -/
def closeCur (st : WrapSt) : List (List Char) :=
  if st.cur = [] then st.lines else st.lines ++ [rstripCh st.cur]

/-- One iteration of the token loop of `wrap_text_lines`.  (Python's
`candidate = (cur + tok) if cur else tok` equals `cur ++ tok` in both cases.) -/
def wrapStep (cw : Char → ℚ) (maxW : ℚ) (st : WrapSt) (tok : List Char) : WrapSt :=
  if tok = [] then st
  else if !tooWide cw maxW (st.cur ++ tok) then
    { st with cur := st.cur ++ tok }
  else if tooWide cw maxW tok then
    -- single token too long: close cur, then emergency split tok
    { lines := closeCur st ++ (emergLoop cw maxW [] tok).1
      cur := (emergLoop cw maxW [] tok).2 }
  else
    -- break before token
    { lines := closeCur st, cur := lstripCh tok }

/-- `wrap_text_lines(pdf, text, max_w_mm)`: greedy word wrap with soft
breakpoints and emergency splits for super-long tokens. -/
def wrap_text_lines (cw : Char → ℚ) (text : List Char) (maxW : ℚ) :
    List (List Char) :=
  if text = [] then [[]]
  else
    let final := (tokenize text).foldl (wrapStep cw maxW) ⟨[], []⟩
    let ls := closeCur final
    if ls = [] then [[]] else ls

/-! ### Width and string lemmas -/

theorem strWidth_append (cw : Char → ℚ) (a b : List Char) :
    strWidth cw (a ++ b) = strWidth cw a + strWidth cw b := by
  simp [strWidth]

theorem strWidth_nonneg (cw : Char → ℚ) (hcw : ∀ c, 0 ≤ cw c) (s : List Char) :
    0 ≤ strWidth cw s := by
  apply List.sum_nonneg
  intro a ha
  obtain ⟨c, _, rfl⟩ := List.mem_map.mp ha
  exact hcw c

theorem strWidth_sublist_le (cw : Char → ℚ) (hcw : ∀ c, 0 ≤ cw c)
    {a b : List Char} (h : a.Sublist b) : strWidth cw a ≤ strWidth cw b := by
  induction h with
  | slnil => simp [strWidth]
  | cons c h ih =>
    simp only [strWidth, List.map_cons, List.sum_cons] at *
    linarith [hcw c]
  | cons₂ c h ih =>
    simp only [strWidth, List.map_cons, List.sum_cons] at *
    linarith

theorem rstripCh_sublist (s : List Char) : (rstripCh s).Sublist s := by
  have h := List.dropWhile_sublist (l := s.reverse) pyIsSpace
  simpa [rstripCh] using h.reverse

theorem lstripCh_sublist (s : List Char) : (lstripCh s).Sublist s :=
  List.dropWhile_sublist pyIsSpace

theorem strWidth_rstripCh_le (cw : Char → ℚ) (hcw : ∀ c, 0 ≤ cw c) (s : List Char) :
    strWidth cw (rstripCh s) ≤ strWidth cw s :=
  strWidth_sublist_le cw hcw (rstripCh_sublist s)

theorem strWidth_lstripCh_le (cw : Char → ℚ) (hcw : ∀ c, 0 ≤ cw c) (s : List Char) :
    strWidth cw (lstripCh s) ≤ strWidth cw s :=
  strWidth_sublist_le cw hcw (lstripCh_sublist s)

theorem tooWide_eq_false_iff (cw : Char → ℚ) (maxW : ℚ) (s : List Char) :
    tooWide cw maxW s = false ↔ strWidth cw s ≤ maxW - 1/2 := by
  simp [tooWide]

theorem tooWide_eq_true_iff (cw : Char → ℚ) (maxW : ℚ) (s : List Char) :
    tooWide cw maxW s = true ↔ maxW - 1/2 < strWidth cw s := by
  simp [tooWide]

/-! ### Tokenizer lemmas -/

theorem tokenizeGo_flatten (l : List Char) : (tokenizeGo l).flatten = l := by
  induction l using tokenizeGo.induct with
  | case1 => simp [tokenizeGo]
  | case2 c rest h ih =>
    simp only [tokenizeGo, if_pos h, List.flatten_cons, List.cons_append]
    rw [ih]
    simp [List.takeWhile_append_dropWhile]
  | case3 c rest h1 h2 ih =>
    simp only [tokenizeGo, if_neg h1, if_pos h2, List.flatten_cons]
    simp [ih]
  | case4 c rest h1 h2 ih =>
    simp only [tokenizeGo, if_neg h1, if_neg h2, List.flatten_cons, List.cons_append]
    rw [ih]
    simp [List.takeWhile_append_dropWhile]

theorem tokenize_flatten (text : List Char) : (tokenize text).flatten = text :=
  tokenizeGo_flatten text

theorem tokenize_ne_nil (text : List Char) : ∀ tok ∈ tokenize text, tok ≠ [] := by
  unfold tokenize
  induction text using tokenizeGo.induct with
  | case1 => simp [tokenizeGo]
  | case2 c rest h ih =>
    simp only [tokenizeGo, if_pos h]
    intro tok htok
    rcases List.mem_cons.mp htok with rfl | htok
    · simp
    · exact ih tok htok
  | case3 c rest h1 h2 ih =>
    simp only [tokenizeGo, if_neg h1, if_pos h2]
    intro tok htok
    rcases List.mem_cons.mp htok with rfl | htok
    · simp
    · exact ih tok htok
  | case4 c rest h1 h2 ih =>
    simp only [tokenizeGo, if_neg h1, if_neg h2]
    intro tok htok
    rcases List.mem_cons.mp htok with rfl | htok
    · simp
    · exact ih tok htok

theorem tokenize_mem_subset (text : List Char) {tok : List Char}
    (htok : tok ∈ tokenize text) : ∀ c ∈ tok, c ∈ text := by
  intro c hc
  have : c ∈ (tokenize text).flatten := List.mem_flatten.mpr ⟨tok, htok, hc⟩
  rwa [tokenize_flatten] at this

/-! ### Emergency-split lemmas -/

theorem emergLoop_fits (cw : Char → ℚ) (maxW : ℚ) :
    ∀ (toks buf : List Char), strWidth cw buf ≤ maxW - 1/2 →
      (∀ ch ∈ toks, cw ch ≤ maxW - 1/2) →
      (∀ l ∈ (emergLoop cw maxW buf toks).1, strWidth cw l ≤ maxW - 1/2) ∧
        strWidth cw (emergLoop cw maxW buf toks).2 ≤ maxW - 1/2 := by
  intro toks
  induction toks with
  | nil =>
    intro buf hb _
    refine ⟨?_, by simpa [emergLoop] using hb⟩
    intro l hl
    simp [emergLoop] at hl
  | cons ch rest ih =>
    intro buf hb hch
    have hchle : cw ch ≤ maxW - 1/2 := hch ch (by simp)
    have hrest : ∀ c ∈ rest, cw c ≤ maxW - 1/2 := fun c hc => hch c (by simp [hc])
    simp only [emergLoop]
    split
    · have ihr := ih [ch] (by simpa [strWidth] using hchle) hrest
      split
      · exact ihr
      · refine ⟨?_, ihr.2⟩
        intro l hl
        rcases List.mem_cons.mp hl with rfl | hl
        · exact hb
        · exact ihr.1 l hl
    · next hnw =>
      have hw : strWidth cw (buf ++ [ch]) ≤ maxW - 1/2 :=
        (tooWide_eq_false_iff cw maxW _).mp (by simpa using hnw)
      exact ih (buf ++ [ch]) hw hrest

theorem emergLoop_flatten (cw : Char → ℚ) (maxW : ℚ) :
    ∀ (toks buf : List Char),
      (emergLoop cw maxW buf toks).1.flatten ++ (emergLoop cw maxW buf toks).2 =
        buf ++ toks := by
  intro toks
  induction toks with
  | nil => intro buf; simp [emergLoop]
  | cons ch rest ih =>
    intro buf
    simp only [emergLoop]
    split
    · split
      · next hbuf => simpa [hbuf] using ih [ch]
      · simpa using ih [ch]
    · simpa using ih (buf ++ [ch])

theorem emergLoop_buf_ne (cw : Char → ℚ) (maxW : ℚ) :
    ∀ (toks buf : List Char), buf ≠ [] ∨ toks ≠ [] →
      (emergLoop cw maxW buf toks).2 ≠ [] := by
  intro toks
  induction toks with
  | nil =>
    intro buf h
    rcases h with h | h
    · simpa [emergLoop] using h
    · simp at h
  | cons ch rest ih =>
    intro buf _
    simp only [emergLoop]
    split
    · have hr := ih [ch] (Or.inl (by simp))
      split
      · exact hr
      · exact hr
    · exact ih (buf ++ [ch]) (Or.inl (by simp))

theorem emergLoop_lines_ne (cw : Char → ℚ) (maxW : ℚ) :
    ∀ (toks buf : List Char), ∀ l ∈ (emergLoop cw maxW buf toks).1, l ≠ [] := by
  intro toks
  induction toks with
  | nil => intro buf l hl; simp [emergLoop] at hl
  | cons ch rest ih =>
    intro buf l hl
    simp only [emergLoop] at hl
    split at hl
    · split at hl
      · exact ih [ch] l hl
      · next hbuf =>
        rcases List.mem_cons.mp hl with rfl | hl
        · exact hbuf
        · exact ih [ch] l hl
    · exact ih (buf ++ [ch]) l hl

theorem flatten_length_ge_of_ne_nil :
    ∀ parts : List (List Char), (∀ p ∈ parts, p ≠ []) →
      parts.length ≤ parts.flatten.length := by
  intro parts
  induction parts with
  | nil => simp
  | cons p ps ih =>
    intro h
    have hp : p ≠ [] := h p (by simp)
    have hlen : 1 ≤ p.length := List.length_pos.mpr hp
    have := ih (fun q hq => h q (by simp [hq]))
    simp only [List.length_cons, List.flatten_cons, List.length_append]
    omega

theorem emergLoop_count (cw : Char → ℚ) (maxW : ℚ) (toks : List Char) :
    (emergLoop cw maxW [] toks).1.length +
      (if (emergLoop cw maxW [] toks).2 = [] then 0 else 1) ≤ toks.length := by
  have hj := emergLoop_flatten cw maxW toks []
  by_cases hb : (emergLoop cw maxW [] toks).2 = []
  · have h1 := flatten_length_ge_of_ne_nil (emergLoop cw maxW [] toks).1
      (emergLoop_lines_ne cw maxW toks [])
    simp only [hb, List.append_nil, List.nil_append] at hj
    rw [hj] at h1
    simpa [hb] using h1
  · have hall : ∀ p ∈ (emergLoop cw maxW [] toks).1 ++ [(emergLoop cw maxW [] toks).2],
        p ≠ [] := by
      intro p hp
      rcases List.mem_append.mp hp with hp | hp
      · exact emergLoop_lines_ne cw maxW toks [] p hp
      · simpa using (List.mem_singleton.mp hp) ▸ hb
    have h1 := flatten_length_ge_of_ne_nil _ hall
    simp only [List.flatten_append, List.flatten_cons, List.flatten_nil,
      List.append_nil, List.nil_append] at h1
    rw [hj] at h1
    simp only [List.length_append, List.length_cons, List.length_nil] at h1
    simpa [hb] using h1

/-! ### The wrap loop keeps every line within the width bound -/

theorem closeCur_fit (cw : Char → ℚ) (maxW : ℚ) (hcw : ∀ c, 0 ≤ cw c) (st : WrapSt)
    (h1 : ∀ l ∈ st.lines, strWidth cw l ≤ maxW - 1/2)
    (h2 : strWidth cw st.cur ≤ maxW - 1/2) :
    ∀ l ∈ closeCur st, strWidth cw l ≤ maxW - 1/2 := by
  intro l hl
  unfold closeCur at hl
  split at hl
  · exact h1 l hl
  · rcases List.mem_append.mp hl with hl | hl
    · exact h1 l hl
    · rw [List.mem_singleton.mp hl]
      exact le_trans (strWidth_rstripCh_le cw hcw st.cur) h2

theorem wrapStep_fit (cw : Char → ℚ) (maxW : ℚ) (hcw : ∀ c, 0 ≤ cw c)
    (hB : 0 ≤ maxW - 1/2) (st : WrapSt) (tok : List Char)
    (htok : ∀ c ∈ tok, cw c ≤ maxW - 1/2)
    (h1 : ∀ l ∈ st.lines, strWidth cw l ≤ maxW - 1/2)
    (h2 : strWidth cw st.cur ≤ maxW - 1/2) :
    (∀ l ∈ (wrapStep cw maxW st tok).lines, strWidth cw l ≤ maxW - 1/2) ∧
      strWidth cw (wrapStep cw maxW st tok).cur ≤ maxW - 1/2 := by
  have hclose := closeCur_fit cw maxW hcw st h1 h2
  by_cases ht : tok = []
  · simp only [wrapStep, if_pos ht]
    exact ⟨h1, h2⟩
  · by_cases hfit : tooWide cw maxW (st.cur ++ tok) = true
    · by_cases hbig : tooWide cw maxW tok = true
      · -- emergency split
        have he := emergLoop_fits cw maxW tok []
          (by simpa [strWidth] using hB) htok
        simp only [wrapStep, if_neg ht, hfit, Bool.not_true, Bool.false_eq_true,
          if_false, if_pos hbig]
        refine ⟨?_, he.2⟩
        intro l hl
        rcases List.mem_append.mp hl with hl | hl
        · exact hclose l hl
        · exact he.1 l hl
      · -- break before token
        have hwle : strWidth cw tok ≤ maxW - 1/2 :=
          (tooWide_eq_false_iff ..).mp (Bool.not_eq_true _ ▸ hbig)
        simp only [wrapStep, if_neg ht, hfit, Bool.not_true, Bool.false_eq_true,
          if_false, if_neg hbig]
        exact ⟨hclose, le_trans (strWidth_lstripCh_le cw hcw tok) hwle⟩
    · -- token accumulates into cur
      have hf : tooWide cw maxW (st.cur ++ tok) = false := by simpa using hfit
      have hwle : strWidth cw (st.cur ++ tok) ≤ maxW - 1/2 :=
        (tooWide_eq_false_iff ..).mp hf
      simp only [wrapStep, if_neg ht, hf, Bool.not_false, if_true]
      exact ⟨h1, hwle⟩

theorem foldl_wrapStep_fit (cw : Char → ℚ) (maxW : ℚ) (hcw : ∀ c, 0 ≤ cw c)
    (hB : 0 ≤ maxW - 1/2) :
    ∀ (toks : List (List Char)) (st : WrapSt),
      (∀ tok ∈ toks, ∀ c ∈ tok, cw c ≤ maxW - 1/2) →
      (∀ l ∈ st.lines, strWidth cw l ≤ maxW - 1/2) →
      strWidth cw st.cur ≤ maxW - 1/2 →
      (∀ l ∈ (toks.foldl (wrapStep cw maxW) st).lines, strWidth cw l ≤ maxW - 1/2) ∧
        strWidth cw (toks.foldl (wrapStep cw maxW) st).cur ≤ maxW - 1/2 := by
  intro toks
  induction toks with
  | nil => intro st _ h1 h2; exact ⟨h1, h2⟩
  | cons tok rest ih =>
    intro st hall h1 h2
    have hstep := wrapStep_fit cw maxW hcw hB st tok (hall tok (by simp)) h1 h2
    simpa using ih (wrapStep cw maxW st tok)
      (fun t ht c hc => hall t (by simp [ht]) c hc) hstep.1 hstep.2

/-- C2: for every non-empty input string whose characters each fit within
`max_width` minus the 0.5-unit safety margin (and any nonnegative per-character
width function), `wrap_text_lines` returns at least one line and every
returned line's measured width is at most `max_width`. -/
theorem wrap_text_lines_fits_width (cw : Char → ℚ) (text : List Char) (maxW : ℚ)
    (hcw : ∀ c, 0 ≤ cw c) (hne : text ≠ [])
    (hmin : ∀ c ∈ text, cw c + 1/2 ≤ maxW) :
    wrap_text_lines cw text maxW ≠ [] ∧
      ∀ l ∈ wrap_text_lines cw text maxW, strWidth cw l ≤ maxW := by
  obtain ⟨c0, hc0⟩ : ∃ c, c ∈ text := by
    cases text with
    | nil => exact absurd rfl hne
    | cons c rest => exact ⟨c, by simp⟩
  have hB : 0 ≤ maxW - 1/2 := by
    have h1 := hmin c0 hc0
    have h2 := hcw c0
    linarith
  have hchars : ∀ tok ∈ tokenize text, ∀ c ∈ tok, cw c ≤ maxW - 1/2 := by
    intro tok htok c hc
    have := hmin c (tokenize_mem_subset text htok c hc)
    linarith
  have hinv := foldl_wrapStep_fit cw maxW hcw hB (tokenize text) ⟨[], []⟩ hchars
    (by intro l hl; simp at hl) (by simp only [strWidth, List.map_nil, List.sum_nil]; linarith)
  have hfin := closeCur_fit cw maxW hcw _ hinv.1 hinv.2
  simp only [wrap_text_lines, if_neg hne]
  split
  · refine ⟨by simp, ?_⟩
    intro l hl
    rw [List.mem_singleton.mp hl]
    simp only [strWidth, List.map_nil, List.sum_nil]
    linarith
  · next hls =>
    refine ⟨hls, ?_⟩
    intro l hl
    have := hfin l hl
    linarith

/-- Witness for `wrap_text_lines_fits_width` at a concrete input. -/
theorem wrap_text_lines_fits_width_witness :
    wrap_text_lines (fun _ => (1 : ℚ)) ("hello world".data) 3 ≠ [] ∧
      ∀ l ∈ wrap_text_lines (fun _ => (1 : ℚ)) ("hello world".data) 3,
        strWidth (fun _ => (1 : ℚ)) l ≤ 3 :=
  wrap_text_lines_fits_width (fun _ => (1 : ℚ)) ("hello world".data) 3
    (fun _ => by norm_num) (by decide) (fun c _ => by norm_num)

/-! ### Concatenation identity for delimiter-free strings -/

theorem dropWhile_eq_self_of_false {p : Char → Bool} {l : List Char}
    (h : ∀ c ∈ l, p c = false) : l.dropWhile p = l := by
  cases l with
  | nil => simp
  | cons c rest => simp [List.dropWhile_cons, h c (by simp)]

theorem rstripCh_eq_self {s : List Char} (h : ∀ c ∈ s, pyIsSpace c = false) :
    rstripCh s = s := by
  unfold rstripCh
  rw [dropWhile_eq_self_of_false, List.reverse_reverse]
  intro c hc
  exact h c (List.mem_reverse.mp hc)

theorem tokenize_word_eq (text : List Char) (hne : text ≠ [])
    (h : ∀ c ∈ text, wordChar c = true) : tokenize text = [text] := by
  cases text with
  | nil => exact absurd rfl hne
  | cons c rest =>
    have hc := h c (by simp)
    have hcs : pyIsSpace c = false := by
      simp only [wordChar, Bool.and_eq_true, Bool.not_eq_true'] at hc
      exact hc.1
    have hcp : isBreakPunct c = false := by
      simp only [wordChar, Bool.and_eq_true, Bool.not_eq_true'] at hc
      exact hc.2
    have hrest : ∀ x ∈ rest, wordChar x = true := fun x hx => h x (by simp [hx])
    unfold tokenize tokenizeGo
    rw [if_neg (by simp [hcs]), if_neg (by simp [hcp])]
    rw [List.takeWhile_eq_self_iff.mpr hrest, List.dropWhile_eq_nil_iff.mpr hrest]
    simp [tokenizeGo]

/-- C3: for an input of only non-whitespace, non-breakable characters, the
emergency character-level split loses and duplicates nothing — concatenating
the returned lines reproduces the original string exactly. -/
theorem wrap_text_lines_concat_eq (cw : Char → ℚ) (maxW : ℚ) (text : List Char)
    (h : ∀ c ∈ text, pyIsSpace c = false ∧ isBreakPunct c = false) :
    (wrap_text_lines cw text maxW).flatten = text := by
  by_cases hne : text = []
  · simp [wrap_text_lines, hne]
  · have hword : ∀ c ∈ text, wordChar c = true := by
      intro c hc
      simp [wordChar, (h c hc).1, (h c hc).2]
    have hnos : ∀ c ∈ text, pyIsSpace c = false := fun c hc => (h c hc).1
    simp only [wrap_text_lines, if_neg hne, tokenize_word_eq text hne hword,
      List.foldl_cons, List.foldl_nil]
    by_cases hw : tooWide cw maxW text = true
    · -- emergency split of the single word token
      have hflat := emergLoop_flatten cw maxW text []
      simp only [List.nil_append] at hflat
      have hbufne : (emergLoop cw maxW [] text).2 ≠ [] :=
        emergLoop_buf_ne cw maxW text [] (Or.inr hne)
      have hbufsub : ∀ c ∈ (emergLoop cw maxW [] text).2, pyIsSpace c = false := by
        intro c hc
        apply hnos
        rw [← hflat]
        exact List.mem_append.mpr (Or.inr hc)
      have hstep : wrapStep cw maxW ⟨[], []⟩ text =
          ⟨(emergLoop cw maxW [] text).1, (emergLoop cw maxW [] text).2⟩ := by
        simp [wrapStep, closeCur, hne, hw]
      rw [hstep]
      have hclose :
          closeCur ⟨(emergLoop cw maxW [] text).1, (emergLoop cw maxW [] text).2⟩ =
            (emergLoop cw maxW [] text).1 ++ [(emergLoop cw maxW [] text).2] := by
        simp only [closeCur, if_neg hbufne]
        rw [rstripCh_eq_self hbufsub]
      rw [hclose, if_neg (by simp)]
      simpa using hflat
    · -- the whole text fits on one line
      have hwf : tooWide cw maxW text = false := by simpa using hw
      have hstep : wrapStep cw maxW ⟨[], []⟩ text = ⟨[], text⟩ := by
        simp [wrapStep, hne, hwf]
      rw [hstep]
      have hclose : closeCur ⟨[], text⟩ = [text] := by
        simp only [closeCur, if_neg hne, List.nil_append]
        rw [rstripCh_eq_self hnos]
      rw [hclose, if_neg (by simp)]
      simp

/-- Witness for `wrap_text_lines_concat_eq` at a concrete input. -/
theorem wrap_text_lines_concat_eq_witness :
    (wrap_text_lines (fun _ => (1 : ℚ)) ("abcdefgh".data) (5/2)).flatten
      = "abcdefgh".data :=
  wrap_text_lines_concat_eq (fun _ => (1 : ℚ)) (5/2) ("abcdefgh".data)
    (by decide)

/-! ### Line-count bound (progress guarantee) -/

/-- Number of (possibly still open) lines held by a wrap state. -/
def stCount (st : WrapSt) : ℕ :=
  st.lines.length + (if st.cur = [] then 0 else 1)

theorem closeCur_length (st : WrapSt) : (closeCur st).length = stCount st := by
  unfold closeCur stCount
  split <;> simp

theorem wrapStep_count (cw : Char → ℚ) (maxW : ℚ) (st : WrapSt) (tok : List Char) :
    stCount (wrapStep cw maxW st tok) ≤ stCount st + tok.length := by
  by_cases ht : tok = []
  · simp [wrapStep, ht]
  · have htl : 1 ≤ tok.length := List.length_pos.mpr ht
    by_cases hfit : tooWide cw maxW (st.cur ++ tok) = true
    · by_cases hbig : tooWide cw maxW tok = true
      · -- emergency split
        have hcnt := emergLoop_count cw maxW tok
        simp only [wrapStep, if_neg ht, hfit, Bool.not_true, Bool.false_eq_true,
          if_false, if_pos hbig]
        simp only [stCount, List.length_append, closeCur_length]
        unfold stCount at *
        omega
      · -- break before token
        simp only [wrapStep, if_neg ht, hfit, Bool.not_true, Bool.false_eq_true,
          if_false, if_neg hbig]
        simp only [stCount, closeCur_length]
        split <;> split <;> omega
    · -- token accumulates into cur
      have hf : tooWide cw maxW (st.cur ++ tok) = false := by simpa using hfit
      have hcne : st.cur ++ tok ≠ [] := by simp [ht]
      simp only [wrapStep, if_neg ht, hf, Bool.not_false, if_true]
      simp only [stCount, if_neg hcne]
      split <;> omega

theorem foldl_wrapStep_count (cw : Char → ℚ) (maxW : ℚ) :
    ∀ (toks : List (List Char)) (st : WrapSt),
      stCount (toks.foldl (wrapStep cw maxW) st) ≤
        stCount st + (toks.map List.length).sum := by
  intro toks
  induction toks with
  | nil => intro st; simp
  | cons tok rest ih =>
    intro st
    have h1 := wrapStep_count cw maxW st tok
    have h2 := ih (wrapStep cw maxW st tok)
    simp only [List.foldl_cons, List.map_cons, List.sum_cons]
    omega

/-- C4: `wrap_text_lines` is total (it always returns at least one line — the
recursions on the token list and on token characters are structurally
terminating), and — the universal one-line/one-character progress guarantee,
`min_chars_per_line = 1` — for a non-empty string whose whitespace-free
tokens each fit within the width bound it produces at most
`ceil(length / 1) = length` lines. -/
theorem wrap_text_lines_terminates_bound (cw : Char → ℚ) (text : List Char)
    (maxW : ℚ) :
    1 ≤ (wrap_text_lines cw text maxW).length ∧
      (text ≠ [] →
        (∀ tok ∈ tokenize text, (∀ c ∈ tok, pyIsSpace c = false) →
            strWidth cw tok ≤ maxW - 1/2) →
        (wrap_text_lines cw text maxW).length ≤ text.length) := by
  constructor
  · unfold wrap_text_lines
    split
    · simp
    · simp only
      split
      · simp
      · next hls => exact List.length_pos.mpr hls
  · intro hne _
    have hcnt := foldl_wrapStep_count cw maxW (tokenize text) ⟨[], []⟩
    have hsum : ((tokenize text).map List.length).sum = text.length := by
      rw [← List.length_flatten, tokenize_flatten]
    have hzero : stCount ⟨[], []⟩ = 0 := by simp [stCount]
    rw [hsum, hzero] at hcnt
    have htl : 1 ≤ text.length := List.length_pos.mpr hne
    simp only [wrap_text_lines, if_neg hne]
    split
    · simpa using htl
    · rw [closeCur_length]
      omega

theorem strWidth_const_one (tok : List Char) :
    strWidth (fun _ => (1 : ℚ)) tok = tok.length := by
  induction tok with
  | nil => simp [strWidth]
  | cons c r ih =>
    simp only [strWidth, List.map_cons, List.sum_cons, List.length_cons] at *
    rw [ih]
    push_cast
    ring

/-- Witness for `wrap_text_lines_terminates_bound` at a concrete input. -/
theorem wrap_text_lines_terminates_bound_witness :
    1 ≤ (wrap_text_lines (fun _ => (1 : ℚ)) ("ab cd".data) 10).length ∧
      (wrap_text_lines (fun _ => (1 : ℚ)) ("ab cd".data) 10).length ≤
        ("ab cd".data).length :=
  ⟨(wrap_text_lines_terminates_bound (fun _ => (1 : ℚ)) ("ab cd".data) 10).1,
    (wrap_text_lines_terminates_bound (fun _ => (1 : ℚ)) ("ab cd".data) 10).2
      (by decide) (by
        intro tok htok _
        have hlen : tok.length ≤ ("ab cd".data).length := by
          rw [← tokenize_flatten "ab cd".data, List.length_flatten]
          exact List.single_le_sum (fun a _ => Nat.zero_le a) _
            (List.mem_map_of_mem _ htok)
        have h5 : ("ab cd".data).length = 5 := by decide
        rw [h5] at hlen
        rw [strWidth_const_one]
        have : (tok.length : ℚ) ≤ 5 := by exact_mod_cast hlen
        linarith)⟩

/-! ### Page geometry and the services-table renderer
(invoice_create.py, lines 15–23, 42–48, 165–259) -/

/-- `TOP_MARGIN_MM = 20`. -/
def TOP_MARGIN_MM : ℚ := 20

/-- `BOTTOM_MARGIN_MM = 5` (safety margin at bottom). -/
def BOTTOM_MARGIN_MM : ℚ := 5

/-- `ROW_PAD_MM = 0.8` (top/bottom padding inside each cell). -/
def ROW_PAD_MM : ℚ := 8/10

/-- `DESC_INNER_PAD_X = 1.0` (left/right padding for the description cell). -/
def DESC_INNER_PAD_X : ℚ := 1

/-- `LEFT_MARGIN_MM = 15`. -/
def LEFT_MARGIN_MM : ℚ := 15

/-- `mm_from_inches(inches) = inches * 25.4`. -/
def mm_from_inches (inches : ℚ) : ℚ :=
  inches * (254/10)

/-- The geometric context a rendering pass runs in: `pdf.h` (page height),
the letterhead top margin in inches (the value of `letterhead_margin_in()`),
and `pdf.ln_height_mm` (the row height for the chosen font). -/
structure Ctx where
  pageH : ℚ
  letterheadIn : ℚ
  rowH : ℚ
deriving Repr, DecidableEq

/-- The drawing-cursor state: `pdf.page_no()` and `pdf.get_y()`. -/
structure PdfState where
  page : ℕ
  y : ℚ
deriving Repr, DecidableEq

/-- `page_top_y(pdf)`: letterhead offset on page 1, plain top margin after. -/
def page_top_y (ctx : Ctx) (page : ℕ) : ℚ :=
  if page = 1 then mm_from_inches ctx.letterheadIn else TOP_MARGIN_MM

/-- The page-break check at the top of each pass of the row-splitting loop:
if even the minimum padded row height does not fit above the bottom safety
margin, `add_page()`; `set_y(page_top_y(pdf))`; `redraw_header()` (which ends
with `ln(row_h)`, advancing the cursor one row height). -/
def rowPageAdjust (ctx : Ctx) (st : PdfState) : PdfState :=
  if ctx.pageH - BOTTOM_MARGIN_MM - st.y < ctx.rowH + 2 * ROW_PAD_MM then
    { page := st.page + 1, y := page_top_y ctx (st.page + 1) + ctx.rowH }
  else st

/-- `max_lines_here = max(1, floor((available_h - 2*ROW_PAD_MM) / row_h))`
where `available_h = usable_bottom - y0`. -/
def rowMaxLines (ctx : Ctx) (y : ℚ) : ℕ :=
  max 1 (Int.toNat ⌊(ctx.pageH - BOTTOM_MARGIN_MM - y - 2 * ROW_PAD_MM) / ctx.rowH⌋)

theorem one_le_rowMaxLines (ctx : Ctx) (y : ℚ) : 1 ≤ rowMaxLines ctx y :=
  le_max_left ..

/-- The row-splitting `while start_idx < len(desc_lines)` loop of
`paginate_services_wrapped`, for one service row.  Returns the description
line-chunks (`desc_lines[start_idx:end_idx]`) drawn by the successive passes,
and the final cursor state; each pass advances the cursor by
`this_row_h = ROW_PAD_MM + row_h * max(1, len(this_lines)) + ROW_PAD_MM`. -/
def rowChunkLoop (ctx : Ctx) (st : PdfState) (rest : List (List Char)) :
    List (List (List Char)) × PdfState :=
  match rest with
  | [] => ([], st)
  | a :: l =>
    let s1 := rowPageAdjust ctx st
    let maxLines := rowMaxLines ctx s1.y
    let thisLines := (a :: l).take maxLines
    let thisRowH := ROW_PAD_MM + ctx.rowH * ((max 1 thisLines.length : ℕ) : ℚ) + ROW_PAD_MM
    let next := rowChunkLoop ctx { page := s1.page, y := s1.y + thisRowH }
      ((a :: l).drop maxLines)
    (thisLines :: next.1, next.2)
termination_by rest.length
decreasing_by
  simp only [List.length_drop, List.length_cons]
  have := one_le_rowMaxLines ctx (rowPageAdjust ctx st).y
  omega

/-- One text row of the services table:
`(date_txt, desc_txt, hrs_txt, rate_txt, amt_txt)`. -/
structure SvcRow where
  dateTxt : List Char
  descTxt : List Char
  hrsTxt : List Char
  rateTxt : List Char
  amtTxt : List Char
deriving Repr, DecidableEq

/-- The `for row in rows` loop of `paginate_services_wrapped`: wraps each
description at the column's interior width and splits the row into chunks via
`rowChunkLoop`, threading the cursor.  Only the description column feeds back
into the layout; the other four cells are drawn at fixed offsets inside the
already-computed chunk box. -/
def svcRowsGo (ctx : Ctx) (cw : Char → ℚ) (descW : ℚ) (st : PdfState) :
    List SvcRow → List (List (List (List Char))) × PdfState
  | [] => ([], st)
  | r :: rs =>
    let descLines := wrap_text_lines cw r.descTxt (descW - 2 * DESC_INNER_PAD_X)
    let rc := rowChunkLoop ctx st descLines
    let next := svcRowsGo ctx cw descW rc.2 rs
    (rc.1 :: next.1, next.2)

/-- `paginate_services_wrapped(pdf, rows, col_widths, headers)` restricted to
the layout-relevant data: draws the initial header (which advances the cursor
by one row height) and then renders every row; the first component collects,
per row, the list of description line-chunks drawn by the successive passes. -/
def paginate_services_wrapped (ctx : Ctx) (cw : Char → ℚ) (descW : ℚ)
    (st : PdfState) (rows : List SvcRow) :
    List (List (List (List Char))) × PdfState :=
  svcRowsGo ctx cw descW { st with y := st.y + ctx.rowH } rows

theorem rowChunkLoop_flatten (ctx : Ctx) :
    ∀ (n : ℕ) (rest : List (List Char)) (st : PdfState), rest.length ≤ n →
      (rowChunkLoop ctx st rest).1.flatten = rest := by
  intro n
  induction n with
  | zero =>
    intro rest st h
    have : rest = [] := List.length_eq_zero.mp (Nat.le_zero.mp h)
    subst this
    simp [rowChunkLoop]
  | succ n ih =>
    intro rest st h
    match rest with
    | [] => simp [rowChunkLoop]
    | a :: l =>
      have hk := one_le_rowMaxLines ctx (rowPageAdjust ctx st).y
      have hlen : ((a :: l).drop (rowMaxLines ctx (rowPageAdjust ctx st).y)).length ≤ n := by
        simp only [List.length_drop, List.length_cons]
        simp only [List.length_cons] at h
        omega
      rw [rowChunkLoop]
      simp only [List.flatten_cons]
      rw [ih _ _ hlen]
      exact List.take_append_drop _ _

theorem svcRowsGo_partition (ctx : Ctx) (cw : Char → ℚ) (descW : ℚ) :
    ∀ (rows : List SvcRow) (st : PdfState),
      List.Forall₂
        (fun (r : SvcRow) chunks =>
          chunks.flatten = wrap_text_lines cw r.descTxt (descW - 2 * DESC_INNER_PAD_X))
        rows (svcRowsGo ctx cw descW st rows).1 := by
  intro rows
  induction rows with
  | nil => intro st; simp [svcRowsGo]
  | cons r rs ih =>
    intro st
    simp only [svcRowsGo]
    refine List.Forall₂.cons ?_ (ih _)
    exact rowChunkLoop_flatten ctx _ _ st le_rfl

/-- C1: in `paginate_services_wrapped`, the chunks of wrapped description
lines drawn by the successive passes of the row-splitting loop form an
ordered partition of the full wrapped-line list: for every service row, the
concatenation of its chunks is exactly the `wrap_text_lines` output for its
description at the column's interior width — no line duplicated, none
dropped, for every geometry and starting cursor (i.e. however many page
breaks occur). -/
theorem paginate_services_wrapped_partition (ctx : Ctx) (cw : Char → ℚ)
    (descW : ℚ) (st : PdfState) (rows : List SvcRow) :
    List.Forall₂
      (fun (r : SvcRow) chunks =>
        chunks.flatten = wrap_text_lines cw r.descTxt (descW - 2 * DESC_INNER_PAD_X))
      rows (paginate_services_wrapped ctx cw descW st rows).1 :=
  svcRowsGo_partition ctx cw descW rows _

/-! ### Domain model (invoice_create.py, lines 383–427) -/

/-- `LineItem(date_obj, desc, hours, rate)`; dates are abstracted to an
ordered index (only comparisons on them occur in the source). -/
structure LineItem where
  date : ℤ
  desc : List Char
  hours : ℚ
  rate : ℚ
deriving Repr, DecidableEq

/-- `LineItem.amount = hours * rate` (a derived property, never stored). -/
def LineItem.amount (i : LineItem) : ℚ :=
  i.hours * i.rate

/-- `CostItem(desc, qty, unit_price)`. -/
structure CostItem where
  desc : List Char
  qty : ℚ
  unit_price : ℚ
deriving Repr, DecidableEq

/-- `CostItem.total = qty * unit_price` (a derived property, never stored). -/
def CostItem.total (c : CostItem) : ℚ :=
  c.qty * c.unit_price

/-- `Invoice(client_name, invoice_date, default_rate)` together with its
service and cost collections. -/
structure Invoice where
  client_name : List Char
  invoice_date : List Char
  default_rate : ℚ
  services : List LineItem
  costs : List CostItem
deriving Repr, DecidableEq

/-- `add_service(dt, desc, hrs)`: appends
`LineItem(dt, desc, hrs, self.default_rate)`. -/
def Invoice.add_service (inv : Invoice) (dt : ℤ) (desc : List Char) (hrs : ℚ) :
    Invoice :=
  { inv with services := inv.services ++ [⟨dt, desc, hrs, inv.default_rate⟩] }

/-- `add_cost(desc, qty, unit_price)`: appends `CostItem(desc, qty, unit_price)`. -/
def Invoice.add_cost (inv : Invoice) (desc : List Char) (qty price : ℚ) : Invoice :=
  { inv with costs := inv.costs ++ [⟨desc, qty, price⟩] }

/-- The attribute assignment `invoice.default_rate = r`. -/
def Invoice.set_default_rate (inv : Invoice) (r : ℚ) : Invoice :=
  { inv with default_rate := r }

/-- `total_services() = sum(i.amount for i in self.services)`. -/
def Invoice.total_services (inv : Invoice) : ℚ :=
  (inv.services.map LineItem.amount).sum

/-- `total_costs() = sum(c.total for c in self.costs)`. -/
def Invoice.total_costs (inv : Invoice) : ℚ :=
  (inv.costs.map CostItem.total).sum

/-- `grand_total() = total_services() + total_costs()`. -/
def Invoice.grand_total (inv : Invoice) : ℚ :=
  inv.total_services + inv.total_costs

/-- C5: `total_services` is exactly `Σ hours × rate`, `total_costs` exactly
`Σ qty × unit_price`, and `grand_total` their sum; the totals are recomputed
from the current item lists on every call (they are functions of the lists
alone, with no cached state), so replacing the lists — as a mutation or a
removal does — immediately changes the returned totals. -/
theorem invoice_totals_exact (inv : Invoice) :
    inv.total_services = (inv.services.map (fun i => i.hours * i.rate)).sum ∧
      inv.total_costs = (inv.costs.map (fun c => c.qty * c.unit_price)).sum ∧
      inv.grand_total = inv.total_services + inv.total_costs ∧
      (∀ s : List LineItem,
        (Invoice.mk inv.client_name inv.invoice_date inv.default_rate s
            inv.costs).total_services = (s.map (fun i => i.hours * i.rate)).sum) ∧
      (∀ cs : List CostItem,
        (Invoice.mk inv.client_name inv.invoice_date inv.default_rate
            inv.services cs).total_costs = (cs.map (fun c => c.qty * c.unit_price)).sum) :=
  ⟨rfl, rfl, rfl, fun _ => rfl, fun _ => rfl⟩

/-- C7: `add_service` stores the invoice's `default_rate` as a captured value
at the moment of the call, and a later assignment to `default_rate` leaves
every previously added service item — hence its rate and amount — unchanged. -/
theorem add_service_captures_rate (inv : Invoice) (dt : ℤ) (desc : List Char)
    (hrs : ℚ) :
    (inv.add_service dt desc hrs).services =
        inv.services ++ [⟨dt, desc, hrs, inv.default_rate⟩] ∧
      (∀ r : ℚ,
        ((inv.add_service dt desc hrs).set_default_rate r).services =
          (inv.add_service dt desc hrs).services) ∧
      (∀ r : ℚ,
        ((inv.add_service dt desc hrs).set_default_rate r).services.map
            LineItem.amount =
          (inv.add_service dt desc hrs).services.map LineItem.amount) :=
  ⟨rfl, fun _ => rfl, fun _ => rfl⟩

/-! ### Dynamic font-size selection (invoice_create.py, lines 456–470) -/

/-- `MAX_FONT_PT = 14`. -/
def MAX_FONT_PT : ℕ := 14

/-- `MIN_FONT_PT = 10`. -/
def MIN_FONT_PT : ℕ := 10

/-- Page height of `FPDF(format='Letter')`: 11 in = 279.4 mm. -/
def LETTER_H_MM : ℚ := 2794/10

/-- The fit test of the font loop:
`total_rows * (pt * 0.35) < h - mm_from_inches(letterhead) - TOP_MARGIN_MM`. -/
def fontFits (totalRows : ℕ) (letterheadIn : ℚ) (pt : ℕ) : Bool :=
  decide ((totalRows : ℚ) * ((pt : ℚ) * (35/100)) <
    LETTER_H_MM - mm_from_inches letterheadIn - TOP_MARGIN_MM)

/-- The font-choosing loop of `generate_pdf`:
`svc_count = len(services)+1`, `cost_count = len(costs)+1`,
`total_rows = svc_count + cost_count + 6`; the loop
`for pt in range(MAX_FONT_PT, MIN_FONT_PT-1, -1)` breaks at the first
(largest) size that fits — written here with the five iterations unrolled —
and `chosen_pt = chosen_pt or MIN_FONT_PT` falls back to the minimum. -/
def choose_font_pt (nSvc nCost : ℕ) (letterheadIn : ℚ) : ℕ :=
  let totalRows := (nSvc + 1) + (nCost + 1) + 6
  if fontFits totalRows letterheadIn 14 then 14
  else if fontFits totalRows letterheadIn 13 then 13
  else if fontFits totalRows letterheadIn 12 then 12
  else if fontFits totalRows letterheadIn 11 then 11
  else if fontFits totalRows letterheadIn 10 then 10
  else MIN_FONT_PT

/-- C6: `generate_pdf` chooses the largest size in 14,13,…,10 whose heuristic
row total fits in the vertical space below the letterhead, and falls back to
the minimum 10 pt when no size in the range passes the test. -/
theorem choose_font_pt_spec (nSvc nCost : ℕ) (lh : ℚ) :
    MIN_FONT_PT ≤ choose_font_pt nSvc nCost lh ∧
      choose_font_pt nSvc nCost lh ≤ MAX_FONT_PT ∧
      (∀ pt : ℕ, choose_font_pt nSvc nCost lh < pt → pt ≤ MAX_FONT_PT →
        fontFits ((nSvc + 1) + (nCost + 1) + 6) lh pt = false) ∧
      (fontFits ((nSvc + 1) + (nCost + 1) + 6) lh (choose_font_pt nSvc nCost lh)
          = true ∨
        (choose_font_pt nSvc nCost lh = MIN_FONT_PT ∧
          ∀ pt : ℕ, MIN_FONT_PT ≤ pt → pt ≤ MAX_FONT_PT →
            fontFits ((nSvc + 1) + (nCost + 1) + 6) lh pt = false)) := by
  simp only [MIN_FONT_PT, MAX_FONT_PT]
  by_cases h14 : fontFits ((nSvc + 1) + (nCost + 1) + 6) lh 14 = true
  · have hc : choose_font_pt nSvc nCost lh = 14 := by
      simp only [choose_font_pt]
      rw [if_pos h14]
    rw [hc]
    refine ⟨by norm_num, le_rfl, ?_, Or.inl h14⟩
    intro pt h1 h2
    omega
  · have h14f : fontFits ((nSvc + 1) + (nCost + 1) + 6) lh 14 = false := by
      simpa using h14
    by_cases h13 : fontFits ((nSvc + 1) + (nCost + 1) + 6) lh 13 = true
    · have hc : choose_font_pt nSvc nCost lh = 13 := by
        simp only [choose_font_pt]
        rw [if_neg h14, if_pos h13]
      rw [hc]
      refine ⟨by norm_num, by norm_num, ?_, Or.inl h13⟩
      intro pt h1 h2
      have heq : pt = 14 := by omega
      rw [heq]
      exact h14f
    · have h13f : fontFits ((nSvc + 1) + (nCost + 1) + 6) lh 13 = false := by
        simpa using h13
      by_cases h12 : fontFits ((nSvc + 1) + (nCost + 1) + 6) lh 12 = true
      · have hc : choose_font_pt nSvc nCost lh = 12 := by
          simp only [choose_font_pt]
          rw [if_neg h14, if_neg h13, if_pos h12]
        rw [hc]
        refine ⟨by norm_num, by norm_num, ?_, Or.inl h12⟩
        intro pt h1 h2
        interval_cases pt
        · exact h13f
        · exact h14f
      · have h12f : fontFits ((nSvc + 1) + (nCost + 1) + 6) lh 12 = false := by
          simpa using h12
        by_cases h11 : fontFits ((nSvc + 1) + (nCost + 1) + 6) lh 11 = true
        · have hc : choose_font_pt nSvc nCost lh = 11 := by
            simp only [choose_font_pt]
            rw [if_neg h14, if_neg h13, if_neg h12, if_pos h11]
          rw [hc]
          refine ⟨by norm_num, by norm_num, ?_, Or.inl h11⟩
          intro pt h1 h2
          interval_cases pt
          · exact h12f
          · exact h13f
          · exact h14f
        · have h11f : fontFits ((nSvc + 1) + (nCost + 1) + 6) lh 11 = false := by
            simpa using h11
          by_cases h10 : fontFits ((nSvc + 1) + (nCost + 1) + 6) lh 10 = true
          · have hc : choose_font_pt nSvc nCost lh = 10 := by
              simp only [choose_font_pt]
              rw [if_neg h14, if_neg h13, if_neg h12, if_neg h11, if_pos h10]
            rw [hc]
            refine ⟨le_rfl, by norm_num, ?_, Or.inl h10⟩
            intro pt h1 h2
            interval_cases pt
            · exact h11f
            · exact h12f
            · exact h13f
            · exact h14f
          · have h10f : fontFits ((nSvc + 1) + (nCost + 1) + 6) lh 10 = false := by
              simpa using h10
            have hc : choose_font_pt nSvc nCost lh = 10 := by
              simp only [choose_font_pt]
              rw [if_neg h14, if_neg h13, if_neg h12, if_neg h11, if_neg h10]
              rfl
            rw [hc]
            refine ⟨le_rfl, by norm_num, ?_, Or.inr ⟨rfl, ?_⟩⟩
            · intro pt h1 h2
              interval_cases pt
              · exact h11f
              · exact h12f
              · exact h13f
              · exact h14f
            · intro pt h1 h2
              interval_cases pt
              · exact h10f
              · exact h11f
              · exact h12f
              · exact h13f
              · exact h14f

/-- Witness for `choose_font_pt_spec` at a concrete invoice size. -/
theorem choose_font_pt_spec_witness :
    MIN_FONT_PT ≤ choose_font_pt 3 2 (5/2) ∧ choose_font_pt 3 2 (5/2) ≤ MAX_FONT_PT :=
  ⟨(choose_font_pt_spec 3 2 (5/2)).1, (choose_font_pt_spec 3 2 (5/2)).2.1⟩

/-! ### Settings store (settings.py) -/

/-- A JSON-like settings value, as stored by `settings.py`. -/
inductive SValue where
  | null
  | bool (b : Bool)
  | num (q : ℚ)
  | str (s : List Char)
  | arr (xs : List SValue)
  | dict (entries : List (List Char × SValue))

/-- `part in node` / `node[part]` for a dict's entry list. -/
def dictFind (k : List Char) : List (List Char × SValue) → Option SValue
  | [] => none
  | (k', v) :: rest => if k' = k then some v else dictFind k rest

/-- Python `path.split(".")` (always at least one segment). -/
def splitDot (s : List Char) : List (List Char) :=
  match s with
  | [] => [[]]
  | c :: rest =>
    if c = '.' then [] :: splitDot rest
    else
      match splitDot rest with
      | [] => [[c]]
      | t :: ts => (c :: t) :: ts

/-- The loop of `settings.get`: walk the dot-path segments; as soon as the
current node is not a dict or lacks the segment, return the default. -/
def settings_getParts : SValue → List (List Char) → SValue → SValue
  | node, [], _ => node
  | node, p :: rest, dflt =>
    match node with
    | .dict es =>
      match dictFind p es with
      | some v => settings_getParts v rest dflt
      | none => dflt
    | _ => dflt

/-- `settings.get(path, default)` over an already-loaded settings store. -/
def settings_get (data : SValue) (path : List Char) (dflt : SValue) : SValue :=
  settings_getParts data (splitDot path) dflt

/-- Specification-side walk: `some v` when every segment resolves, `none`
as soon as a segment is missing or the node reached is not a dict. -/
def settings_find : SValue → List (List Char) → Option SValue
  | node, [] => some node
  | node, p :: rest =>
    match node with
    | .dict es =>
      match dictFind p es with
      | some v => settings_find v rest
      | none => none
    | _ => none

/-- The `DEFAULTS` dictionary of `settings.py`.  (`default_export_dir` is
`str(Path.home() / "Documents" / "BetterBilling" / "exports")`, a
machine-dependent string; a placeholder spelling is used, it is never read
by any claim.) -/
def DEFAULTS : SValue :=
  .dict
    [ ("version".data, .num 1),
      ("general".data, .dict
        [ ("default_rate".data, .num 250),
          ("default_export_dir".data,
            .str "~/Documents/BetterBilling/exports".data),
          ("launch_page".data, .str "dashboard".data) ]),
      ("invoice".data, .dict
        [ ("require_explicit_zero_hours".data, .bool true) ]),
      ("pdf".data, .dict
        [ ("file_naming_template".data, .str "{client}_invoice[{date}].pdf".data),
          ("thousand_separators".data, .bool true) ]),
      ("letterhead".data, .dict
        [ ("top_margin_in".data, .num (5/2)),
          ("default_name".data, .null),
          ("library".data, .arr []) ]),
      ("ui".data, .dict
        [ ("discard_warning".data, .bool true) ]) ]

/-- Value of digit characters, `foldl`-style (assumes digits). -/
def digitsVal (ds : List Char) : ℕ :=
  ds.foldl (fun a c => a * 10 + (c.toNat - 48)) 0

/-- Model of Python `float(string)` for plain decimal literals
(optional surrounding whitespace, optional sign, digits with an optional
single decimal point); other spellings raise in Python and yield `none`
here.  Exponents and special values are not modelled — no settings value
relevant to the claims uses them. -/
def parseDecimal (s : List Char) : Option ℚ :=
  let t := pyStrip s
  let signAndRest : ℚ × List Char :=
    match t with
    | '-' :: r => (-1, r)
    | '+' :: r => (1, r)
    | _ => (1, t)
  let intPart := signAndRest.2.takeWhile Char.isDigit
  let rest := signAndRest.2.dropWhile Char.isDigit
  match rest with
  | [] =>
    if intPart = [] then none
    else some (signAndRest.1 * (digitsVal intPart : ℚ))
  | '.' :: frac =>
    if frac.all Char.isDigit ∧ (intPart ≠ [] ∨ frac ≠ []) then
      some (signAndRest.1 *
        ((digitsVal intPart : ℚ) + (digitsVal frac : ℚ) / (10 ^ frac.length)))
    else none
  | _ => none

/-- Model of the Python builtin `float(x)` on a stored settings value:
numbers pass through, booleans become 0/1, decimal strings parse; `None`,
lists and dicts raise (`none`). -/
def pyFloat (v : SValue) : Option ℚ :=
  match v with
  | .num q => some q
  | .bool b => some (if b then 1 else 0)
  | .str s => parseDecimal s
  | _ => none

/-- `letterhead_margin_in()`:
`try: return float(settings.get("letterhead.top_margin_in", 2.5))
except Exception: return 2.5`, over a given loaded store. -/
def letterhead_margin_in (store : SValue) : ℚ :=
  match pyFloat (settings_get store ("letterhead.top_margin_in".data) (.num (5/2))) with
  | some q => q
  | none => 5/2

theorem settings_getParts_eq_find :
    ∀ (parts : List (List Char)) (store dflt : SValue),
      settings_getParts store parts dflt = (settings_find store parts).getD dflt := by
  intro parts
  induction parts with
  | nil => intro store dflt; rfl
  | cons p rest ih =>
    intro store dflt
    cases store with
    | dict es =>
      simp only [settings_getParts, settings_find]
      cases hd : dictFind p es with
      | some v => simpa using ih v dflt
      | none => simp
    | null => rfl
    | bool b => rfl
    | num q => rfl
    | str s => rfl
    | arr xs => rfl

/-- C9: a failed configuration read yields the documented default, never an
error: `settings.get` returns the supplied default exactly when some segment
of the dot-path is missing or the node reached is not a dict (and the stored
value otherwise), and `letterhead_margin_in()` returns 2.5 both when the key
is absent and when the stored value cannot be converted to a float; on the
defaults store (which `load_settings` falls back to when the file is corrupt)
it also returns 2.5.  All functions involved are total, so no exception can
propagate to the renderer. -/
theorem settings_failure_returns_default (store : SValue)
    (parts : List (List Char)) (dflt : SValue) :
    (settings_find store parts = none →
        settings_getParts store parts dflt = dflt) ∧
      (∀ v, settings_find store parts = some v →
        settings_getParts store parts dflt = v) ∧
      (settings_find store (splitDot ("letterhead.top_margin_in".data)) = none →
        letterhead_margin_in store = 5/2) ∧
      (pyFloat (settings_get store ("letterhead.top_margin_in".data)
          (.num (5/2))) = none → letterhead_margin_in store = 5/2) ∧
      letterhead_margin_in DEFAULTS = 5/2 := by
  refine ⟨?_, ?_, ?_, ?_, ?_⟩
  · intro h
    rw [settings_getParts_eq_find, h]
    rfl
  · intro v h
    rw [settings_getParts_eq_find, h]
    rfl
  · intro h
    unfold letterhead_margin_in settings_get
    rw [settings_getParts_eq_find, h]
    rfl
  · intro h
    unfold letterhead_margin_in
    rw [h]
  · rfl

/-- Witness for `settings_failure_returns_default` on an empty store (every
path fails) and the defaults store. -/
theorem settings_failure_returns_default_witness :
    settings_getParts (SValue.dict []) ["missing".data] (.bool true) = .bool true ∧
      letterhead_margin_in (SValue.dict []) = 5/2 ∧
      letterhead_margin_in DEFAULTS = 5/2 := by
  have h := settings_failure_returns_default (SValue.dict []) ["missing".data]
    (.bool true)
  exact ⟨h.1 rfl, h.2.2.1 rfl, h.2.2.2.2⟩

/-! ### Filename helpers (invoice_create.py, lines 340–364) -/

/-- The kept class of `re.sub(r"[^A-Za-z0-9 _\x2d]", "", name)`. -/
def keepClientChar (c : Char) : Bool :=
  ('A' ≤ c && c ≤ 'Z') || ('a' ≤ c && c ≤ 'z') || ('0' ≤ c && c ≤ '9') ||
    c = ' ' || c = '_' || c = '-'

/-- `re.sub(r"\s+", "_", s)`, one character at a time: the first whitespace
character of a run becomes `_`, the rest of the run is dropped (`inRun`
remembers whether the previous character was whitespace). -/
def collapseWsGo (inRun : Bool) : List Char → List Char
  | [] => []
  | c :: rest =>
    if pyIsSpace c then
      if inRun then collapseWsGo true rest else '_' :: collapseWsGo true rest
    else c :: collapseWsGo false rest

/-- `re.sub(r"\s+", "_", s)`: collapse each maximal whitespace run to one
underscore. -/
def collapseWs (s : List Char) : List Char :=
  collapseWsGo false s

/-- `sanitize_client(name)`: keep letters/digits/space/underscore/dash,
strip, collapse whitespace runs to underscores. -/
def sanitize_client (name : List Char) : List Char :=
  collapseWs (pyStrip (name.filter keepClientChar))

/-- `date_for_filename(ui_mmddyyyy)`: replace every `/` by `-`. -/
def date_for_filename (s : List Char) : List Char :=
  s.map (fun c => if c = '/' then '-' else c)

/-- Model of `template.format(client=..., date=...)` for templates made of
literal text and the `{client}` / `{date}` fields — the only variables the
source's docstring supports.  Fuel-indexed so that it evaluates by kernel
reduction; one template character always consumes at least one fuel unit. -/
def formatTemplateGo (client date : List Char) : ℕ → List Char → List Char
  | 0, _ => []
  | _, [] => []
  | n + 1, c :: rest =>
    if ("{client}".data).isPrefixOf (c :: rest) then
      client ++ formatTemplateGo client date n ((c :: rest).drop 8)
    else if ("{date}".data).isPrefixOf (c :: rest) then
      date ++ formatTemplateGo client date n ((c :: rest).drop 6)
    else
      c :: formatTemplateGo client date n rest

/-- `template.format(client=..., date=...)` on a whole template string. -/
def formatTemplate (client date tmpl : List Char) : List Char :=
  formatTemplateGo client date tmpl.length tmpl

/-- `render_filename_from_template(inv)`: fetch
`settings.get("pdf.file_naming_template", "{client}_invoice[{date}].pdf")`,
substitute the sanitized client and dash-separated date; a non-string
template (whose `.format` raises) falls back to the inline f-string. -/
def render_filename_from_template (store : SValue) (inv : Invoice) : List Char :=
  match settings_get store ("pdf.file_naming_template".data)
      (.str ("{client}_invoice[{date}].pdf".data)) with
  | .str t =>
    formatTemplate (sanitize_client inv.client_name)
      (date_for_filename inv.invoice_date) t
  | _ =>
    sanitize_client inv.client_name ++ "_invoice[".data ++
      date_for_filename inv.invoice_date ++ "].pdf".data

/-- C8: with the default template, the client name `O'Brien & Sons, Ltd.`
and the date `03/07/2025` render exactly to
`OBrien_Sons_Ltd_invoice[03-07-2025].pdf`. -/
theorem render_filename_obrien :
    render_filename_from_template DEFAULTS
        { client_name := "O'Brien & Sons, Ltd.".data
          invoice_date := "03/07/2025".data
          default_rate := 0, services := [], costs := [] } =
      "OBrien_Sons_Ltd_invoice[03-07-2025].pdf".data := by
  decide

/-! ### `normalize_desc` (invoice_create.py, lines 51–55) -/

/-- ASCII model of `str.upper()` on one character, as an explicit table. -/
def upperTable : List (Char × Char) :=
  [('a', 'A'), ('b', 'B'), ('c', 'C'), ('d', 'D'), ('e', 'E'), ('f', 'F'),
   ('g', 'G'), ('h', 'H'), ('i', 'I'), ('j', 'J'), ('k', 'K'), ('l', 'L'),
   ('m', 'M'), ('n', 'N'), ('o', 'O'), ('p', 'P'), ('q', 'Q'), ('r', 'R'),
   ('s', 'S'), ('t', 'T'), ('u', 'U'), ('v', 'V'), ('w', 'W'), ('x', 'X'),
   ('y', 'Y'), ('z', 'Z')]

/-- First-match association lookup in a character table. -/
def charLookup (c : Char) : List (Char × Char) → Option Char
  | [] => none
  | (a, b) :: rest => if a = c then some b else charLookup c rest

/-- `s[0].upper()` for one character: lowercase ASCII letters map to their
uppercase partner, everything else is unchanged. -/
def upperChar (c : Char) : Char :=
  match charLookup c upperTable with
  | some u => u
  | none => c

/-- `normalize_desc(s)`: strip, and if non-empty uppercase the first
character (`s[0].upper() + s[1:]`). -/
def normalize_desc (s : List Char) : List Char :=
  match pyStrip s with
  | [] => []
  | c :: rest => upperChar c :: rest

theorem charLookup_mem :
    ∀ (tbl : List (Char × Char)) (c u : Char), charLookup c tbl = some u →
      (c, u) ∈ tbl := by
  intro tbl
  induction tbl with
  | nil => intro c u h; simp [charLookup] at h
  | cons p rest ih =>
    intro c u h
    obtain ⟨a, b⟩ := p
    simp only [charLookup] at h
    split at h
    · next heq =>
      cases h
      rw [heq]
      simp
    · simp [ih c u h]

theorem upperTable_closed :
    ∀ p ∈ upperTable, charLookup p.2 upperTable = none ∧ pyIsSpace p.2 = false := by
  decide

theorem upperChar_idem (c : Char) : upperChar (upperChar c) = upperChar c := by
  cases h : charLookup c upperTable with
  | none => simp [upperChar, h]
  | some u =>
    have hm := charLookup_mem upperTable c u h
    have hu := (upperTable_closed (c, u) hm).1
    simp [upperChar, h, hu]

theorem upperChar_not_space (c : Char) (hc : pyIsSpace c = false) :
    pyIsSpace (upperChar c) = false := by
  cases h : charLookup c upperTable with
  | none => simpa [upperChar, h] using hc
  | some u =>
    have hm := charLookup_mem upperTable c u h
    have hu := (upperTable_closed (c, u) hm).2
    simpa [upperChar, h] using hu

theorem dropWhile_head_false {p : Char → Bool} :
    ∀ {l : List Char} {c : Char} {rest : List Char},
      l.dropWhile p = c :: rest → p c = false := by
  intro l
  induction l with
  | nil => intro c rest h; simp at h
  | cons a t ih =>
    intro c rest h
    rw [List.dropWhile_cons] at h
    split at h
    · exact ih h
    · next hpa =>
      cases h
      simpa using hpa

theorem rstripCh_append_eq (X : List Char) :
    X = rstripCh X ++ (X.reverse.takeWhile pyIsSpace).reverse := by
  conv_lhs => rw [← List.reverse_reverse X,
    ← List.takeWhile_append_dropWhile (p := pyIsSpace) (l := X.reverse)]
  rw [List.reverse_append]
  rfl

theorem pyStrip_head_not_space {s : List Char} {c : Char} {rest : List Char}
    (h : pyStrip s = c :: rest) : pyIsSpace c = false := by
  have hsplit := rstripCh_append_eq (lstripCh s)
  have hps : rstripCh (lstripCh s) = c :: rest := h
  rw [hps, List.cons_append] at hsplit
  exact dropWhile_head_false (l := s) hsplit

theorem pyStrip_getLast_not_space {s : List Char} {d : Char}
    (h : (pyStrip s).getLast? = some d) : pyIsSpace d = false := by
  unfold pyStrip rstripCh at h
  rw [List.getLast?_reverse] at h
  cases hB : (lstripCh s).reverse.dropWhile pyIsSpace with
  | nil => rw [hB] at h; simp at h
  | cons x t =>
    rw [hB] at h
    simp only [List.head?_cons, Option.some.injEq] at h
    rw [← h]
    exact dropWhile_head_false hB

theorem pyStrip_eq_self_of (s : List Char)
    (h1 : ∀ c, s.head? = some c → pyIsSpace c = false)
    (h2 : ∀ c, s.getLast? = some c → pyIsSpace c = false) :
    pyStrip s = s := by
  cases s with
  | nil => rfl
  | cons a l =>
    have ha : pyIsSpace a = false := h1 a rfl
    have hl : lstripCh (a :: l) = a :: l := by
      simp [lstripCh, List.dropWhile_cons, ha]
    unfold pyStrip
    rw [hl]
    unfold rstripCh
    cases hrev : (a :: l).reverse with
    | nil => simp at hrev
    | cons d t =>
      have hd : (a :: l).getLast? = some d := by
        rw [← List.head?_reverse, hrev]
        rfl
      have hdns := h2 d hd
      have hdw : List.dropWhile pyIsSpace (d :: t) = d :: t := by
        simp [List.dropWhile_cons, hdns]
      calc (List.dropWhile pyIsSpace (d :: t)).reverse
          = (d :: t).reverse := by rw [hdw]
        _ = (a :: l).reverse.reverse := by rw [hrev]
        _ = a :: l := List.reverse_reverse _

/-- C10: `normalize_desc` is idempotent — re-normalizing an already stored
description, as the edit handlers do, never changes it; its result carries no
leading or trailing whitespace (`pyStrip` leaves it unchanged), and when
non-empty its first character is in uppercased form (it is a fixed point of
`upperChar`, i.e. not a lowercase letter). -/
theorem normalize_desc_idem (s : List Char) :
    normalize_desc (normalize_desc s) = normalize_desc s ∧
      pyStrip (normalize_desc s) = normalize_desc s ∧
      ∀ c rest, normalize_desc s = c :: rest → upperChar c = c := by
  cases hps : pyStrip s with
  | nil =>
    have h0 : normalize_desc s = [] := by simp [normalize_desc, hps]
    rw [h0]
    refine ⟨?_, rfl, ?_⟩
    · rfl
    · intro c rest h
      simp at h
  | cons c rest =>
    have hr : normalize_desc s = upperChar c :: rest := by
      simp [normalize_desc, hps]
    have hc : pyIsSpace c = false := pyStrip_head_not_space hps
    have hu : pyIsSpace (upperChar c) = false := upperChar_not_space c hc
    have hlast2 : ∀ d, (upperChar c :: rest).getLast? = some d →
        pyIsSpace d = false := by
      intro d hd
      cases rest with
      | nil =>
        simp only [List.getLast?_singleton, Option.some.injEq] at hd
        rw [← hd]
        exact hu
      | cons r rs =>
        rw [List.getLast?_cons_cons] at hd
        apply pyStrip_getLast_not_space (s := s)
        rw [hps, List.getLast?_cons_cons]
        exact hd
    have hstrip : pyStrip (upperChar c :: rest) = upperChar c :: rest := by
      apply pyStrip_eq_self_of
      · intro x hx
        simp only [List.head?_cons, Option.some.injEq] at hx
        rw [← hx]
        exact hu
      · exact hlast2
    rw [hr]
    refine ⟨?_, hstrip, ?_⟩
    · simp [normalize_desc, hstrip, upperChar_idem]
    · intro c' rest' h
      injection h with h1 _
      rw [← h1]
      exact upperChar_idem c

/-- Witness for `normalize_desc_idem` at a concrete input. -/
theorem normalize_desc_idem_witness :
    normalize_desc (normalize_desc ("  hello world  ".data)) =
        normalize_desc ("  hello world  ".data) ∧
      upperChar 'H' = 'H' :=
  ⟨(normalize_desc_idem ("  hello world  ".data)).1,
    (normalize_desc_idem ("  hello world  ".data)).2.2 'H' ("ello world".data)
      (by decide)⟩
